import Mathlib

/-!
Verification of the mdbook-private preprocessor (src/lib.rs).

The development shallowly embeds the two core algorithms of the crate:

* the inline private-block extraction performed by
  `RE.replace_all` with the pattern
  `<!--\s*private\b\s*[\r?\n]?((?s).*?)[\r?\n]?\s*-->[\r?\n]?`
  (lib.rs lines 61-86), modelled as a deterministic scanner over
  `List Char` that reproduces the leftmost-first / lazy-dot semantics of
  the `regex` crate for this particular pattern;

* the whole-chapter filtering (`process_item`, lines 135-162) and
  renumbering (`update_section_numbers`, lines 112-133) over the book
  tree, together with the configuration handling of `Private::run`
  (lines 33-104), where the `unwrap()` panic on a wrongly typed
  configuration value is modelled as the terminal error of the run.

Character classes follow the regex crate on the ASCII fragment:
`\s` is modelled by the Unicode white-space characters and the word
characters of `\b` by ASCII alphanumerics plus underscore.
-/

namespace MdbookPrivate

/-- White-space test modelling `\s` of the regex crate (Unicode
White_Space; all characters relevant to the sources are ASCII). -/
def wsChar (c : Char) : Bool :=
  ('\u0009' ≤ c && c ≤ '\u000D') || c = ' ' || c = '\u0085' || c = '\u00A0' ||
  c = '\u1680' || ('\u2000' ≤ c && c ≤ '\u200A') || c = '\u2028' ||
  c = '\u2029' || c = '\u202F' || c = '\u205F' || c = '\u3000'

/-- Word-character test for the `\b` after `private` (ASCII fragment of
the regex crate's `\w`). -/
def wordChar (c : Char) : Bool :=
  c.isAlphanum || c = '_'

/-- Membership in the character class `[\r?\n]` of the pattern (note the
literal `?` inside the class). -/
def clsChar (c : Char) : Bool :=
  c = '\r' || c = '?' || c = '\n'

/-- The literal `<!--` opening the comment marker. -/
def openTok : List Char := ['<', '!', '-', '-']

/-- The literal keyword `private`. -/
def kwTok : List Char := ['p', 'r', 'i', 'v', 'a', 't', 'e']

/-- The literal `-->` closing the comment marker. -/
def closeTok : List Char := ['-', '-', '>']

/-- Strip a literal pattern from the front of a list, returning the rest. -/
def stripL : List Char → List Char → Option (List Char)
  | [], s => some s
  | _ :: _, [] => none
  | p :: ps, c :: cs => if c = p then stripL ps cs else none

/-- Consume a maximal run of white space (`\s*`; greedy, and
deterministic here because every following literal starts with a
non-white-space character). -/
def skipWs : List Char → List Char
  | [] => []
  | c :: cs => if wsChar c then skipWs cs else c :: cs

/-- Consume one optional character of the class `[\r?\n]` (greedy `?`). -/
def clsOpt : List Char → List Char
  | [] => []
  | c :: cs => if clsChar c then cs else c :: cs

/-- Try the closing tail `[\r?\n]?\s*-->` at the current position; the
branch consuming the class character is tried first, matching the
preference order of a greedy `?`.  Returns the rest after `-->`. -/
def tailAt (s : List Char) : Option (List Char) :=
  match s with
  | c :: cs =>
    if clsChar c then
      match stripL closeTok (skipWs cs) with
      | some r => some r
      | none => stripL closeTok (skipWs s)
    else stripL closeTok (skipWs s)
  | [] => none

/-- Lazy scan `((?s).*?)` up to the nearest position where the closing
tail matches: the capture is the shortest prefix whose continuation
matches `[\r?\n]?\s*-->`.  Returns the capture and the rest after `-->`. -/
def findClose : List Char → Option (List Char × List Char)
  | [] => none
  | c :: cs =>
    match tailAt (c :: cs) with
    | some r => some ([], r)
    | none => (findClose cs).map (fun pr => (c :: pr.1, pr.2))

/-- Match the whole pattern at the head of `s`:
`<!--\s*private\b\s*[\r?\n]?((?s).*?)[\r?\n]?\s*-->[\r?\n]?`.
Returns the capture group and the rest of the input after the match. -/
def matchAt (s : List Char) : Option (List Char × List Char) :=
  match stripL openTok s with
  | none => none
  | some r1 =>
    match stripL kwTok (skipWs r1) with
    | none => none
    | some r3 =>
      match r3 with
      | c :: _ => if wordChar c then none else
          match findClose (clsOpt (skipWs r3)) with
          | none => none
          | some (cap, r6) => some (cap, clsOpt r6)
      | [] =>
          match findClose (clsOpt (skipWs r3)) with
          | none => none
          | some (cap, r6) => some (cap, clsOpt r6)

/-- Leftmost match: the prefix before the match, the capture, and the
rest after the match. -/
def findM : List Char → Option (List Char × List Char × List Char)
  | [] =>
    match matchAt [] with
    | some (cap, rest) => some ([], cap, rest)
    | none => none
  | c :: cs =>
    match matchAt (c :: cs) with
    | some (cap, rest) => some ([], cap, rest)
    | none => (findM cs).map (fun pr => (c :: pr.1, pr.2.1, pr.2.2))

/-- Fuelled `replace_all`: replace every successive leftmost match,
resuming right after each match.  One unit of fuel per replacement is
ample because every match consumes at least one character. -/
def replaceAllF (f : List Char → List Char) : Nat → List Char → List Char
  | 0, s => s
  | Nat.succ n, s =>
    match findM s with
    | none => s
    | some (pre, cap, rest) => pre ++ f cap ++ replaceAllF f n rest

/-- `RE.replace_all` over the content, with `f` computing the
replacement from the capture group `caps[1]`. -/
def replaceAll (f : List Char → List Char) (s : List Char) : List Char :=
  replaceAllF f s.length s

/-- Remove mode: `RE.replace_all(content, "")` (lib.rs line 70). -/
def extractRemoveL (s : List Char) : List Char :=
  replaceAll (fun _ => []) s

/-- The constant `STYLE_CONTENT` (lib.rs line 13). -/
def styleContent : String := "position: relative; padding: 20px 20px;"

/-- The constant `STYLE_NOTICE` (lib.rs line 14). -/
def styleNotice : String :=
  "position: absolute; top: 0; right: 5px; font-size: 80%; opacity: 0.4;"

/-- Replacement used when the block is kept (lib.rs lines 72-81): a
styled blockquote wrapping the notice and the capture, or the bare
capture plus a newline. -/
def keepRepl (style : Bool) (notice : String) (cap : List Char) : List Char :=
  if style then
    ("<blockquote style='" ++ styleContent ++ "'><span style='" ++
      styleNotice ++ "'>" ++ notice ++ "</span>").toList ++ cap ++
      "</blockquote>\n".toList
  else cap ++ ['\n']

/-- Keep mode: `RE.replace_all` with the styled or unstyled wrapper. -/
def extractKeepL (style : Bool) (notice : String) (s : List Char) : List Char :=
  replaceAll (keepRepl style notice) s

/-- Substring test: does the literal pattern occur anywhere in `s`? -/
def hasSub (pat : List Char) : List Char → Bool
  | [] => (stripL pat []).isSome
  | c :: cs => (stripL pat (c :: cs)).isSome || hasSub pat cs

/-- `mdbook::BookItem`: a chapter (name, content, optional section
number, sub-items, optional path, optional source path, parent names),
a separator, or a part title.  Source paths are modelled as strings;
`PathBuf` to UTF-8 conversion (`to_str`) always succeeds on them. -/
inductive BookItem where
  | chapter (name : String) (content : String) (number : Option (List Nat))
      (subItems : List BookItem) (path : Option String)
      (sourcePath : Option String) (parentNames : List String)
  | separator
  | partTitle (title : String)
deriving Repr

/-- Split a character list at `/` separators. -/
def splitSlash : List Char → List (List Char)
  | [] => [[]]
  | c :: cs =>
    if c = '/' then [] :: splitSlash cs
    else
      match splitSlash cs with
      | [] => [[c]]
      | h :: t => (c :: h) :: t

/-- Character-list version of `str::starts_with`. -/
def leadChars (pat s : List Char) : Bool := (stripL pat s).isSome

/-- `Path::file_name` on a relative path string, as its character list:
the final non-empty, non-`.` component, or none when the path is empty
or ends in `..`. -/
def fileName (s : String) : Option (List Char) :=
  let comps := (splitSlash s.toList).filter (fun c => c != [] && c != ['.'])
  match comps.getLast? with
  | none => none
  | some l => if l = ['.', '.'] then none else some l

mutual

/-- `process_item` (lib.rs lines 135-162).  The chained `?` operators on
`source_path`, `file_name` and `to_str` make the function return `None`
(drop the item) when the chapter has no source path or the path has no
file name; a chapter whose file name starts with the configured marker
is also dropped; any surviving chapter keeps its fields and rebuilds its
children recursively; non-chapter items pass through. -/
def processItem (pfx : String) : BookItem → Option BookItem
  | .chapter n c num subs p sp pn =>
    match sp with
    | none => none
    | some spath =>
      match fileName spath with
      | none => none
      | some f =>
        if leadChars pfx.toList f then none
        else some (.chapter n c num (processItems pfx subs) p (some spath) pn)
  | .separator => some .separator
  | .partTitle t => some (.partTitle t)

/-- The filtering loop over a list of items (the `filter_map` over
`book.sections` and the `for sub in &ch.sub_items` loop). -/
def processItems (pfx : String) : List BookItem → List BookItem
  | [] => []
  | i :: is =>
    match processItem pfx i with
    | none => processItems pfx is
    | some j => j :: processItems pfx is

end

/-- `update_chapter_numbers` (lib.rs lines 115-130): walk sibling
lists with the current number path and a per-level counter starting at
1; a numbered chapter receives `current ++ [counter]`, its children are
renumbered below the extended path, and the counter advances; an
unnumbered chapter and every non-chapter item are left untouched (their
sub-items are not visited). -/
def updateChapterNumbers (cur : List Nat) (counter : Nat) :
    List BookItem → List BookItem
  | [] => []
  | .chapter n c num subs p sp pn :: rest =>
    match num with
    | some _ =>
      .chapter n c (some (cur ++ [counter]))
          (updateChapterNumbers (cur ++ [counter]) 1 subs) p sp pn ::
        updateChapterNumbers cur (counter + 1) rest
    | none => .chapter n c none subs p sp pn :: updateChapterNumbers cur counter rest
  | it :: rest => it :: updateChapterNumbers cur counter rest

/-- `update_section_numbers` (lib.rs lines 112-133). -/
def updateSectionNumbers (sections : List BookItem) : List BookItem :=
  updateChapterNumbers [] 1 sections

mutual

/-- `book.for_each_mut` applied to one item: rewrite the chapter's
content with `f` and recurse into its sub-items (lib.rs lines 66-86). -/
def mapItemContent (f : String → String) : BookItem → BookItem
  | .chapter n c num subs p sp pn =>
    .chapter n (f c) num (mapBookContent f subs) p sp pn
  | .separator => .separator
  | .partTitle t => .partTitle t

/-- `book.for_each_mut` over a list of items. -/
def mapBookContent (f : String → String) : List BookItem → List BookItem
  | [] => []
  | i :: is => mapItemContent f i :: mapBookContent f is

end

/-- A TOML value as far as the preprocessor configuration observes it:
a boolean, a string, or anything else. -/
inductive TomlVal where
  | boolV (b : Bool)
  | strV (s : String)
  | otherV
deriving Repr

/-- `as_bool` on a TOML value. -/
def asBool : TomlVal → Option Bool
  | .boolV b => some b
  | _ => none

/-- `as_str` on a TOML value. -/
def asStr : TomlVal → Option String
  | .strV s => some s
  | _ => none

/-- The `[preprocessor.private]` table: each recognized key is either
absent or holds some TOML value. -/
structure PrivateCfg where
  remove : Option TomlVal := none
  style : Option TomlVal := none
  notice : Option TomlVal := none
  chapterPfx : Option TomlVal := none
deriving Repr

/-- Effective configuration after the reads in lib.rs lines 37-59. -/
structure EffCfg where
  remove : Bool
  style : Bool
  notice : String
  pfx : String
deriving Repr

/-- `Option::unwrap` on the result of a type coercion: a wrongly typed
value panics, modelled as the terminal error of the run. -/
def unwrapOr : Option α → Except Unit α
  | some a => Except.ok a
  | none => Except.error ()

/-- Read of an optional boolean key: the default when the key is absent,
otherwise `as_bool().unwrap()`. -/
def readB : Option TomlVal → Bool → Except Unit Bool
  | none, d => Except.ok d
  | some v, _ => unwrapOr (asBool v)

/-- Read of an optional string key: the default when the key is absent,
otherwise `as_str().unwrap()`. -/
def readS : Option TomlVal → String → Except Unit String
  | none, d => Except.ok d
  | some v, _ => unwrapOr (asStr v)

/-- The nested `style`/`notice` reads (lib.rs lines 46-54): when the
`style` key is absent neither value is read and the defaults stand; when
it is present, `style` is coerced to a boolean and then the `notice` key
is read whatever that boolean turned out to be. -/
def readSN : Option TomlVal → Option TomlVal → Except Unit (Bool × String)
  | none, _ => Except.ok (true, "CONFIDENTIAL")
  | some v, nt => do
    let s ← unwrapOr (asBool v)
    let n ← readS nt "CONFIDENTIAL"
    Except.ok (s, n)

/-- The configuration reads of `Private::run` (lib.rs lines 36-59),
preserving their order and nesting: `remove` first; then `style`, with
`notice` only inside the branch where the `style` key is present; then
`chapter-prefix`. -/
def parseCfg : Option PrivateCfg → Except Unit EffCfg
  | none => Except.ok ⟨false, true, "CONFIDENTIAL", "_"⟩
  | some t => do
    let remove ← readB t.remove false
    let sn ← readSN t.style t.notice
    let pfx ← readS t.chapterPfx "_"
    Except.ok ⟨remove, sn.1, sn.2, pfx⟩

/-- The per-chapter content rewrite chosen by the configuration
(lib.rs lines 69-82). -/
def extractContent (remove style : Bool) (notice : String) (s : String) : String :=
  if remove then (extractRemoveL s.toList).asString
  else (extractKeepL style notice s.toList).asString

/-- `Private::run` (lib.rs lines 33-104): read the configuration,
rewrite every chapter's content, and in remove mode rebuild the tree by
filtering private chapters and realigning section numbers. -/
def runPrivate (cfg : Option PrivateCfg) (sections : List BookItem) :
    Except Unit (List BookItem) := do
  let c ← parseCfg cfg
  let extracted := mapBookContent (extractContent c.remove c.style c.notice) sections
  if c.remove then
    Except.ok (updateSectionNumbers (processItems c.pfx extracted))
  else
    Except.ok extracted

/-- Canonical opening of a private block: `<!--private` followed by a
line break (equal to `"<!--private\n".toList`). -/
def bOpen : List Char := openTok ++ kwTok ++ ['\n']

/-- Canonical closing of a private block: a line break, `-->`, and the
consumed following line break (equal to `"\n-->\n".toList`). -/
def bClose : List Char := '\n' :: closeTok ++ ['\n']

/-- A recognized configuration key holds a value that is not a boolean. -/
def wrongBool (o : Option TomlVal) : Prop :=
  ∃ v, o = some v ∧ asBool v = none

/-- A recognized configuration key holds a value that is not a string. -/
def wrongStr (o : Option TomlVal) : Prop :=
  ∃ v, o = some v ∧ asStr v = none

/-- Density specification for the output of the renumberer: along every
sibling list whose ancestors are all numbered, the numbered chapters
carry exactly `p ++ [1]`, `p ++ [2]`, ... in order (`p` the parent's
number path), unnumbered chapters and non-chapter items do not consume a
counter slot, and sibling lists below an unnumbered chapter are not
constrained (the source never visits them). -/
def dense : List Nat → Nat → List BookItem → Prop
  | _, _, [] => True
  | p, k, .chapter _ _ (some num) subs _ _ _ :: rest =>
    num = p ++ [k] ∧ dense (p ++ [k]) 1 subs ∧ dense p (k + 1) rest
  | p, k, .chapter _ _ none _ _ _ _ :: rest => dense p k rest
  | p, k, .separator :: rest => dense p k rest
  | p, k, .partTitle _ :: rest => dense p k rest

/-- Preservation specification for the renumberer: the output has the
same items in the same order; a numbered chapter keeps every field but
its number and stays numbered, with its children related recursively;
an unnumbered chapter and every non-chapter item are returned entirely
unchanged, including their whole subtree. -/
def keepsNum : List BookItem → List BookItem → Prop
  | [], out => out = []
  | .chapter n c (some _) subs p sp pn :: rest, out =>
    ∃ y subs' rest', out = .chapter n c (some y) subs' p sp pn :: rest' ∧
      keepsNum subs subs' ∧ keepsNum rest rest'
  | .chapter n c none subs p sp pn :: rest, out =>
    ∃ rest', out = .chapter n c none subs p sp pn :: rest' ∧ keepsNum rest rest'
  | .separator :: rest, out =>
    ∃ rest', out = .separator :: rest' ∧ keepsNum rest rest'
  | .partTitle t :: rest, out =>
    ∃ rest', out = .partTitle t :: rest' ∧ keepsNum rest rest'

/-- Structural equality up to chapter contents: the same items in the
same order, with every chapter field except `content` unchanged and
sub-items related recursively. -/
def sameShape : List BookItem → List BookItem → Prop
  | [], out => out = []
  | .chapter n _ num subs p sp pn :: rest, out =>
    ∃ c' subs' rest', out = .chapter n c' num subs' p sp pn :: rest' ∧
      sameShape subs subs' ∧ sameShape rest rest'
  | .separator :: rest, out =>
    ∃ rest', out = .separator :: rest' ∧ sameShape rest rest'
  | .partTitle t :: rest, out =>
    ∃ rest', out = .partTitle t :: rest' ∧ sameShape rest rest'

/-- Number of the first item, when it is a chapter. -/
def itemNumber : BookItem → Option (List Nat)
  | .chapter _ _ num _ _ _ _ => num
  | _ => none

/-- Sub-items of an item, when it is a chapter. -/
def itemSubs : BookItem → List BookItem
  | .chapter _ _ _ subs _ _ _ => subs
  | _ => []

/-- The number carried by the first sub-chapter of the first chapter of
a section list (used to observe renumbering outputs). -/
def headSubNumber (items : List BookItem) : Option (List Nat) :=
  match items with
  | it :: _ =>
    match itemSubs it with
    | s :: _ => itemNumber s
    | [] => none
  | [] => none

/-! Basic lemmas about the scanning primitives. -/

theorem stripL_append (pat r : List Char) : stripL pat (pat ++ r) = some r := by
  induction pat with
  | nil => rfl
  | cons c cs ih => simp [stripL, ih]

theorem stripL_some {pat s r : List Char} (h : stripL pat s = some r) :
    s = pat ++ r := by
  induction pat generalizing s with
  | nil => simpa [stripL] using h
  | cons c cs ih =>
    cases s with
    | nil => simp [stripL] at h
    | cons d ds =>
      by_cases hd : d = c
      · subst hd
        simp only [stripL, if_pos rfl] at h
        simpa using ih h
      · simp [stripL, hd] at h

theorem stripL_length {pat s r : List Char} (h : stripL pat s = some r) :
    s.length = pat.length + r.length := by
  have := stripL_some h
  subst this
  simp

theorem skipWs_cons_nonws {c : Char} (cs : List Char) (h : wsChar c = false) :
    skipWs (c :: cs) = c :: cs := by
  simp [skipWs, h]

theorem skipWs_append_nonws (u : List Char) {c : Char} (x : List Char)
    (h : wsChar c = false) : skipWs (u ++ c :: x) = skipWs u ++ c :: x := by
  induction u with
  | nil => simp [skipWs, h]
  | cons d ds ih => by_cases hd : wsChar d <;> simp [skipWs, hd, ih]

theorem skipWs_length (s : List Char) : (skipWs s).length ≤ s.length := by
  induction s with
  | nil => simp [skipWs]
  | cons c cs ih =>
    by_cases hc : wsChar c
    · simp only [skipWs, hc, if_pos, List.length_cons]
      omega
    · simp [skipWs, hc]

theorem clsOpt_length (s : List Char) : (clsOpt s).length ≤ s.length := by
  cases s with
  | nil => simp [clsOpt]
  | cons c cs => by_cases hc : clsChar c <;> simp [clsOpt, hc]

theorem hasSub_parts {pat : List Char} {c : Char} {cs : List Char}
    (h : hasSub pat (c :: cs) = false) :
    stripL pat (c :: cs) = none ∧ hasSub pat cs = false := by
  simp only [hasSub, Bool.or_eq_false_iff] at h
  exact ⟨Option.not_isSome_iff_eq_none.mp (by simp [h.1]), h.2⟩

theorem hasSub_tail {pat : List Char} {c : Char} {cs : List Char}
    (h : hasSub pat (c :: cs) = false) : hasSub pat cs = false :=
  (hasSub_parts h).2

theorem skipWs_hasSub {pat u : List Char} (h : hasSub pat u = false) :
    hasSub pat (skipWs u) = false := by
  induction u with
  | nil => simpa [skipWs] using h
  | cons c cs ih =>
    by_cases hc : wsChar c
    · simp only [skipWs, hc, if_pos]
      exact ih (hasSub_tail h)
    · simpa [skipWs, hc] using h

theorem hasSub_drop {pat l : List Char} (k : Nat) (h : hasSub pat l = false) :
    hasSub pat (l.drop k) = false := by
  induction k generalizing l with
  | zero => simpa using h
  | succ n ih =>
    cases l with
    | nil => simpa using h
    | cons c cs => simpa using ih (hasSub_tail h)

/-! Locating the closing delimiter. -/

theorem stripClose_mid {w : List Char} {v r : List Char}
    (hw : hasSub closeTok w = false)
    (h : stripL closeTok (w ++ (closeTok ++ v)) = some r) : w = [] ∧ r = v := by
  match w with
  | [] =>
    refine ⟨rfl, ?_⟩
    rw [List.nil_append, stripL_append] at h
    exact (Option.some_injective _ h).symm
  | [a] =>
    exfalso
    by_cases ha : a = '-'
    · subst ha; simp [closeTok, stripL] at h
    · simp [closeTok, stripL, ha] at h
  | [a, b] =>
    exfalso
    by_cases ha : a = '-'
    · subst ha
      by_cases hb : b = '-'
      · subst hb; simp [closeTok, stripL] at h
      · simp [closeTok, stripL, hb] at h
    · simp [closeTok, stripL, ha] at h
  | a :: b :: d :: t =>
    exfalso
    by_cases ha : a = '-'
    · subst ha
      by_cases hb : b = '-'
      · subst hb
        by_cases hd : d = '>'
        · subst hd
          have hs : stripL closeTok ('-' :: '-' :: '>' :: t) = some t := by
            simp [closeTok, stripL]
          simp [hasSub, hs] at hw
        · simp [closeTok, stripL, hd] at h
      · simp [closeTok, stripL, hb] at h
    · simp [closeTok, stripL, ha] at h

theorem tailAt_at_close (v : List Char) : tailAt (closeTok ++ v) = some v := by
  have h1 : closeTok ++ v = '-' :: ('-' :: '>' :: v) := rfl
  have h3 : wsChar '-' = false := by decide
  rw [h1]
  simp only [tailAt, show clsChar '-' = false by decide, Bool.false_eq_true,
    if_neg, skipWs_cons_nonws _ h3]
  rw [show ('-' :: '-' :: '>' :: v) = closeTok ++ v from rfl, stripL_append]
  simp

theorem tailAt_mid {u : List Char} (v : List Char)
    (hu : hasSub closeTok u = false) :
    tailAt (u ++ (closeTok ++ v)) = none ∨ tailAt (u ++ (closeTok ++ v)) = some v := by
  cases u with
  | nil => exact Or.inr (by simpa using tailAt_at_close v)
  | cons c u' =>
    have h3 : wsChar '-' = false := by decide
    have hskip : skipWs (u' ++ (closeTok ++ v)) = skipWs u' ++ (closeTok ++ v) :=
      skipWs_append_nonws u' ('-' :: '>' :: v) h3
    have hsub' : hasSub closeTok (skipWs u') = false :=
      skipWs_hasSub (hasSub_tail hu)
    rw [List.cons_append]
    have hE2 : stripL closeTok (skipWs (c :: (u' ++ (closeTok ++ v)))) = none ∨
        stripL closeTok (skipWs (c :: (u' ++ (closeTok ++ v)))) = some v := by
      by_cases hwc : wsChar c
      · rw [show skipWs (c :: (u' ++ (closeTok ++ v))) =
            skipWs (u' ++ (closeTok ++ v)) by simp [skipWs, hwc], hskip]
        cases hE : stripL closeTok (skipWs u' ++ (closeTok ++ v)) with
        | none => exact Or.inl rfl
        | some r => exact Or.inr (by rw [(stripClose_mid hsub' hE).2])
      · rw [skipWs_cons_nonws _ (by simpa using hwc)]
        cases hE : stripL closeTok (c :: (u' ++ (closeTok ++ v))) with
        | none => exact Or.inl rfl
        | some r =>
          have hE' : stripL closeTok ((c :: u') ++ (closeTok ++ v)) = some r := by
            simpa using hE
          exact absurd (stripClose_mid hu hE').1 (by simp)
    by_cases hc : clsChar c
    · simp only [tailAt, hc, if_pos]
      rw [hskip]
      cases hE : stripL closeTok (skipWs u' ++ (closeTok ++ v)) with
      | some r =>
        rw [(stripClose_mid hsub' hE).2]
        exact Or.inr rfl
      | none =>
        rcases hE2 with h2 | h2
        · exact Or.inl (by simp [h2])
        · exact Or.inr (by simp [h2])
    · simp only [tailAt, hc, Bool.false_eq_true, if_neg]
      rcases hE2 with h2 | h2
      · exact Or.inl (by simp [h2])
      · exact Or.inr (by simp [h2])

theorem findClose_mid : ∀ (u : List Char), hasSub closeTok u = false →
    ∀ v, ∃ cap, findClose (u ++ (closeTok ++ v)) = some (cap, v) := by
  intro u
  induction u with
  | nil =>
    intro _ v
    refine ⟨[], ?_⟩
    rw [List.nil_append, show closeTok ++ v = '-' :: ('-' :: '>' :: v) from rfl]
    simp only [findClose]
    rw [show ('-' :: ('-' :: '>' :: v)) = closeTok ++ v from rfl, tailAt_at_close]
  | cons c u' ih =>
    intro hu v
    rcases tailAt_mid v hu with ht | ht
    · rcases ih (hasSub_tail hu) v with ⟨cap, hcap⟩
      refine ⟨c :: cap, ?_⟩
      rw [List.cons_append]
      simp only [findClose]
      rw [show c :: (u' ++ (closeTok ++ v)) = (c :: u') ++ (closeTok ++ v) from rfl, ht]
      simp [hcap]
    · refine ⟨[], ?_⟩
      rw [List.cons_append]
      simp only [findClose]
      rw [show c :: (u' ++ (closeTok ++ v)) = (c :: u') ++ (closeTok ++ v) from rfl, ht]

/-! Matching a canonical private block at the head of the input. -/

theorem stripL_close_snoc_nl {l : List Char} (h : stripL closeTok l = none) :
    stripL closeTok (l ++ ['\n']) = none := by
  match l with
  | [] => simp [closeTok, stripL]
  | [a] =>
    by_cases ha : a = '-'
    · subst ha; simp [closeTok, stripL]
    · simp [closeTok, stripL, ha]
  | [a, b] =>
    by_cases ha : a = '-'
    · subst ha
      by_cases hb : b = '-'
      · subst hb; simp [closeTok, stripL]
      · simp [closeTok, stripL, hb]
    · simp [closeTok, stripL, ha]
  | a :: b :: d :: t =>
    by_cases ha : a = '-'
    · subst ha
      by_cases hb : b = '-'
      · subst hb
        by_cases hd : d = '>'
        · subst hd; simp [closeTok, stripL] at h
        · simp [closeTok, stripL, hd]
      · simp [closeTok, stripL, hb]
    · simp [closeTok, stripL, ha]

theorem hasSub_close_snoc_nl {l : List Char} (h : hasSub closeTok l = false) :
    hasSub closeTok (l ++ ['\n']) = false := by
  induction l with
  | nil => decide
  | cons c cs ih =>
    rcases hasSub_parts h with ⟨h1, h2⟩
    have hstrip : stripL closeTok ((c :: cs) ++ ['\n']) = none :=
      stripL_close_snoc_nl h1
    simp only [List.cons_append, hasSub, Bool.or_eq_false_iff]
    constructor
    · simpa using congrArg Option.isSome hstrip
    · exact ih h2

theorem hasSub_close_block {p : List Char} (hp : hasSub closeTok p = false) :
    hasSub closeTok ('\n' :: (p ++ ['\n'])) = false := by
  simp only [hasSub, Bool.or_eq_false_iff]
  constructor
  · simp [closeTok, stripL]
  · exact hasSub_close_snoc_nl hp

theorem matchAt_block {p : List Char} (post : List Char)
    (hp : hasSub closeTok p = false) :
    ∃ cap, matchAt (bOpen ++ (p ++ (bClose ++ post))) = some (cap, post) := by
  have harr : bOpen ++ (p ++ (bClose ++ post)) =
      openTok ++ (kwTok ++ ('\n' :: (p ++ (bClose ++ post)))) := by
    simp [bOpen]
  have hkw : skipWs (kwTok ++ ('\n' :: (p ++ (bClose ++ post)))) =
      kwTok ++ ('\n' :: (p ++ (bClose ++ post))) :=
    skipWs_cons_nonws _ (by decide)
  -- the text after the keyword, viewed around the closing delimiter
  have hr3 : ('\n' :: (p ++ (bClose ++ post))) =
      ('\n' :: (p ++ ['\n'])) ++ (closeTok ++ ('\n' :: post)) := by
    simp [bClose]
  have hu0 : hasSub closeTok ('\n' :: (p ++ ['\n'])) = false :=
    hasSub_close_block hp
  have hskip : skipWs (('\n' :: (p ++ ['\n'])) ++ (closeTok ++ ('\n' :: post))) =
      skipWs ('\n' :: (p ++ ['\n'])) ++ (closeTok ++ ('\n' :: post)) :=
    skipWs_append_nonws _ _ (by decide)
  have hsubW : hasSub closeTok (skipWs ('\n' :: (p ++ ['\n']))) = false :=
    skipWs_hasSub hu0
  -- the argument handed to the lazy scan, as u ++ (closeTok ++ v)
  have hcls : ∃ u, hasSub closeTok u = false ∧
      clsOpt (skipWs ('\n' :: (p ++ ['\n'])) ++ (closeTok ++ ('\n' :: post))) =
        u ++ (closeTok ++ ('\n' :: post)) := by
    cases hW : skipWs ('\n' :: (p ++ ['\n'])) with
    | nil =>
      refine ⟨[], by decide, ?_⟩
      simp only [List.nil_append]
      rw [show closeTok ++ ('\n' :: post) = '-' :: ('-' :: '>' :: '\n' :: post) from rfl]
      simp [clsOpt, show clsChar '-' = false by decide]
    | cons d w' =>
      rw [hW] at hsubW
      by_cases hd : clsChar d
      · exact ⟨w', hasSub_tail hsubW, by simp [clsOpt, hd]⟩
      · exact ⟨d :: w', hsubW, by simp [clsOpt, hd]⟩
  rcases hcls with ⟨u, hu, hcls⟩
  rcases findClose_mid u hu ('\n' :: post) with ⟨cap, hfc⟩
  refine ⟨cap, ?_⟩
  rw [harr]
  simp only [matchAt, stripL_append, hkw]
  rw [if_neg (by decide : ¬ wordChar '\n' = true)]
  rw [hr3, hskip, hcls, hfc]
  simp [clsOpt, show clsChar '\n' = true by decide]

/-! The leftmost-match scan. -/

theorem matchAt_nil : matchAt [] = none := rfl

theorem stripL_open_cons_none {a t' : List Char}
    (ha : hasSub openTok a = false) (hne : a ≠ []) :
    stripL openTok (a ++ '<' :: t') = none := by
  match a with
  | [] => exact absurd rfl hne
  | [x] =>
    by_cases hx : x = '<'
    · subst hx; simp [openTok, stripL]
    · simp [openTok, stripL, hx]
  | [x, y] =>
    by_cases hx : x = '<'
    · subst hx
      by_cases hy : y = '!'
      · subst hy; simp [openTok, stripL]
      · simp [openTok, stripL, hy]
    · simp [openTok, stripL, hx]
  | [x, y, z] =>
    by_cases hx : x = '<'
    · subst hx
      by_cases hy : y = '!'
      · subst hy
        by_cases hz : z = '-'
        · subst hz; simp [openTok, stripL]
        · simp [openTok, stripL, hz]
      · simp [openTok, stripL, hy]
    · simp [openTok, stripL, hx]
  | x :: y :: z :: w :: t =>
    by_cases hx : x = '<'
    · subst hx
      by_cases hy : y = '!'
      · subst hy
        by_cases hz : z = '-'
        · subst hz
          by_cases hw : w = '-'
          · subst hw
            have hs : stripL openTok ('<' :: '!' :: '-' :: '-' :: t) = some t := by
              simp [openTok, stripL]
            simp [hasSub, hs] at ha
          · simp [openTok, stripL, hw]
        · simp [openTok, stripL, hz]
      · simp [openTok, stripL, hy]
    · simp [openTok, stripL, hx]

theorem matchAt_no_open {a t' : List Char}
    (ha : hasSub openTok a = false) (hne : a ≠ []) :
    matchAt (a ++ '<' :: t') = none := by
  simp [matchAt, stripL_open_cons_none ha hne]

theorem findM_of_matchAt {s cap rest : List Char}
    (h : matchAt s = some (cap, rest)) : findM s = some ([], cap, rest) := by
  cases s with
  | nil => rw [matchAt_nil] at h; exact absurd h (by simp)
  | cons c cs => simp [findM, h]

theorem findM_append {pre t : List Char}
    (h : ∀ k, k < pre.length → matchAt (pre.drop k ++ t) = none) :
    findM (pre ++ t) =
      (findM t).map (fun pr => (pre ++ pr.1, pr.2.1, pr.2.2)) := by
  induction pre with
  | nil => cases hf : findM t <;> simp [hf]
  | cons c pre' ih =>
    have h0 : matchAt (c :: (pre' ++ t)) = none := by
      simpa using h 0 (by simp)
    rw [List.cons_append]
    simp only [findM, h0]
    rw [ih (fun k hk => by simpa using h (k + 1) (by simpa using hk))]
    cases hf : findM t <;> simp [hf]

theorem findM_block {pre p : List Char} (post : List Char)
    (hpre : hasSub openTok pre = false) (hp : hasSub closeTok p = false) :
    ∃ cap, findM (pre ++ (bOpen ++ (p ++ (bClose ++ post)))) =
      some (pre, cap, post) := by
  rcases matchAt_block post hp with ⟨cap, hm⟩
  refine ⟨cap, ?_⟩
  have hk : ∀ k, k < pre.length →
      matchAt (pre.drop k ++ (bOpen ++ (p ++ (bClose ++ post)))) = none := by
    intro k hk
    have hne : pre.drop k ≠ [] := by
      intro hcon
      have hlen := List.length_drop k pre
      rw [hcon] at hlen
      simp at hlen
      omega
    have harr : bOpen ++ (p ++ (bClose ++ post)) =
        '<' :: ('!' :: '-' :: '-' :: 'p' :: 'r' :: 'i' :: 'v' :: 'a' :: 't' ::
          'e' :: '\n' :: (p ++ (bClose ++ post))) := by
      simp [bOpen, openTok, kwTok]
    rw [harr]
    exact matchAt_no_open (hasSub_drop k hpre) hne
  rw [findM_append hk, findM_of_matchAt hm]
  simp

theorem findM_none_of_no_open {s : List Char}
    (h : hasSub openTok s = false) : findM s = none := by
  induction s with
  | nil => rfl
  | cons c cs ih =>
    have h1 : stripL openTok (c :: cs) = none := (hasSub_parts h).1
    have hm : matchAt (c :: cs) = none := by simp [matchAt, h1]
    simp [findM, hm, ih (hasSub_tail h)]

/-! Length bounds giving the fuel discipline of `replaceAll`. -/

theorem tailAt_length {s r : List Char} (h : tailAt s = some r) :
    r.length + 3 ≤ s.length := by
  cases s with
  | nil => simp [tailAt] at h
  | cons c cs =>
    have hsk := skipWs_length cs
    have hsk2 := skipWs_length (c :: cs)
    simp only [tailAt] at h
    by_cases hc : clsChar c
    · rw [if_pos hc] at h
      cases hE : stripL closeTok (skipWs cs) with
      | some r2 =>
        simp only [hE, Option.some_inj] at h
        subst h
        have := stripL_length hE
        simp only [closeTok, List.length_cons, List.length_nil, List.length] at this
        simp only [List.length_cons]
        omega
      | none =>
        simp only [hE] at h
        have := stripL_length h
        simp only [closeTok, List.length_cons, List.length_nil, List.length] at this
        omega
    · rw [if_neg hc] at h
      have := stripL_length h
      simp only [closeTok, List.length_cons, List.length_nil, List.length] at this
      omega

theorem findClose_length : ∀ {s cap r : List Char},
    findClose s = some (cap, r) → r.length + 3 ≤ s.length := by
  intro s
  induction s with
  | nil => intro cap r h; simp [findClose] at h
  | cons c cs ih =>
    intro cap r h
    simp only [findClose] at h
    cases hT : tailAt (c :: cs) with
    | some r2 =>
      simp only [hT, Option.some_inj, Prod.mk.injEq] at h
      have := tailAt_length hT
      exact h.2 ▸ this
    | none =>
      simp only [hT, Option.map_eq_some'] at h
      rcases h with ⟨⟨cap', r'⟩, hfc, hpair⟩
      simp only [Prod.mk.injEq] at hpair
      have := ih hfc
      rw [← hpair.2]
      simp only [List.length_cons]
      omega

theorem matchAt_rest_length {s cap rest : List Char}
    (h : matchAt s = some (cap, rest)) : rest.length < s.length := by
  simp only [matchAt] at h
  cases hE1 : stripL openTok s with
  | none => simp [hE1] at h
  | some r1 =>
    simp only [hE1] at h
    cases hE2 : stripL kwTok (skipWs r1) with
    | none => simp [hE2] at h
    | some r3 =>
      have l1 : s.length = 4 + r1.length := by
        have := stripL_length hE1
        simpa [openTok] using this
      have l2 : (skipWs r1).length = 7 + r3.length := by
        have := stripL_length hE2
        simpa [kwTok] using this
      have l3 := skipWs_length r1
      have main : ∀ {cap2 r6 : List Char},
          findClose (clsOpt (skipWs r3)) = some (cap2, r6) →
          rest = clsOpt r6 → rest.length < s.length := by
        intro cap2 r6 hFC hrest
        have b1 := findClose_length hFC
        have b2 := clsOpt_length (skipWs r3)
        have b3 := skipWs_length r3
        have b4 := clsOpt_length r6
        rw [hrest]
        omega
      cases r3 with
      | nil =>
        simp only [hE2] at h
        simp [skipWs, clsOpt, findClose] at h
      | cons c r3' =>
        simp only [hE2] at h
        by_cases hw : wordChar c
        · simp [hw] at h
        · simp only [hw, Bool.false_eq_true, if_false] at h
          cases hFC : findClose (clsOpt (skipWs (c :: r3'))) with
          | none => simp [hFC] at h
          | some pr =>
            obtain ⟨cap2, r6⟩ := pr
            simp only [hFC, Option.some_inj, Prod.mk.injEq] at h
            exact main hFC h.2.symm

theorem findM_rest_length : ∀ {s pre cap rest : List Char},
    findM s = some (pre, cap, rest) → rest.length < s.length := by
  intro s
  induction s with
  | nil => intro pre cap rest h; simp [findM, matchAt_nil] at h
  | cons c cs ih =>
    intro pre cap rest h
    simp only [findM] at h
    cases hM : matchAt (c :: cs) with
    | some pr =>
      obtain ⟨cap2, rest2⟩ := pr
      simp only [hM, Option.some_inj, Prod.mk.injEq] at h
      rw [← h.2.2]
      exact matchAt_rest_length hM
    | none =>
      simp only [hM, Option.map_eq_some'] at h
      rcases h with ⟨⟨pre', cap', rest'⟩, hfm, hpair⟩
      simp only [Prod.mk.injEq] at hpair
      rw [← hpair.2.2]
      have := ih hfm
      simp only [List.length_cons]
      omega

theorem replaceAllF_irrel (f : List Char → List Char) :
    ∀ n m (s : List Char), s.length ≤ n → s.length ≤ m →
      replaceAllF f n s = replaceAllF f m s := by
  intro n
  induction n with
  | zero =>
    intro m s h1 _
    have hs : s = [] := List.eq_nil_of_length_eq_zero (by omega)
    subst hs
    cases m with
    | zero => rfl
    | succ m' => simp [replaceAllF, findM, matchAt_nil]
  | succ n ih =>
    intro m s h1 h2
    cases m with
    | zero =>
      have hs : s = [] := List.eq_nil_of_length_eq_zero (by omega)
      subst hs
      simp [replaceAllF, findM, matchAt_nil]
    | succ m' =>
      cases hF : findM s with
      | none => simp only [replaceAllF, hF]
      | some pr =>
        obtain ⟨pre, cap, rest⟩ := pr
        have hl := findM_rest_length hF
        simp only [replaceAllF, hF]
        rw [ih m' rest (by omega) (by omega)]

theorem replaceAll_none {f : List Char → List Char} {s : List Char}
    (h : findM s = none) : replaceAll f s = s := by
  show replaceAllF f s.length s = s
  cases hn : s.length with
  | zero => rfl
  | succ n => simp [replaceAllF, h]

theorem replaceAll_some {f : List Char → List Char} {s pre cap rest : List Char}
    (h : findM s = some (pre, cap, rest)) :
    replaceAll f s = pre ++ f cap ++ replaceAll f rest := by
  have hlt := findM_rest_length h
  show replaceAllF f s.length s = pre ++ f cap ++ replaceAllF f rest.length rest
  cases hn : s.length with
  | zero =>
    have hs : s = [] := List.eq_nil_of_length_eq_zero hn
    subst hs
    simp [findM, matchAt_nil] at h
  | succ n =>
    simp only [replaceAllF, h]
    rw [replaceAllF_irrel f n rest.length rest (by omega) (le_refl _)]

/-! Removal of a canonical private block. -/

theorem extractRemove_block {pre p : List Char} (post : List Char)
    (hpre : hasSub openTok pre = false) (hp : hasSub closeTok p = false) :
    extractRemoveL (pre ++ (bOpen ++ (p ++ (bClose ++ post)))) =
      pre ++ extractRemoveL post := by
  rcases findM_block post hpre hp with ⟨cap, hf⟩
  show replaceAll (fun _ => []) _ = _
  rw [replaceAll_some hf]
  simp [extractRemoveL]

theorem extractRemove_no_open {s : List Char}
    (h : hasSub openTok s = false) : extractRemoveL s = s :=
  replaceAll_none (findM_none_of_no_open h)

/-! Claims about the Block Extractor. -/

/-- C5: for every valid private block (canonical form: the opening
marker `<!--private` with its line break, an arbitrary payload free of
the literal closing delimiter, the closing `\n-->`, and the consumed
following line break), remove mode deletes the entire matched span and
leaves the surrounding text; scanning continues after the block. -/
theorem C5_remove_block (pre p post : List Char)
    (hpre : hasSub openTok pre = false) (hp : hasSub closeTok p = false) :
    extractRemoveL (pre ++ (bOpen ++ (p ++ (bClose ++ post)))) =
      pre ++ extractRemoveL post :=
  extractRemove_block post hpre hp

/-- Witness for C5, the concrete scenario of the specification:
`"# C\n<!--private\nSecret\n-->\nEnd"` becomes `"# C\nEnd"`. -/
theorem C5_remove_block_witness :
    extractRemoveL ("# C\n<!--private\nSecret\n-->\nEnd".toList) =
      "# C\nEnd".toList := by
  have e1 : "# C\n<!--private\nSecret\n-->\nEnd".toList =
      "# C\n".toList ++ (bOpen ++ ("Secret".toList ++ (bClose ++ "End".toList))) := by
    decide
  rw [e1, C5_remove_block _ _ _ (by decide) (by decide)]
  decide

/-- C6: two private blocks in sequence are each closed at their own
nearest end marker: the first extraction stops at the first block's
closing delimiter, leaving the separating text and the second block
intact for the continuing scan, which removes the second block in turn.
The payloads are arbitrary (they may contain the keyword `private` or
other comment-like text) as long as they do not contain the literal
closing delimiter. -/
theorem C6_two_blocks (p1 mid p2 post : List Char)
    (hp1 : hasSub closeTok p1 = false) (hp2 : hasSub closeTok p2 = false)
    (hmid : hasSub openTok mid = false) :
    extractRemoveL
        (bOpen ++ (p1 ++ (bClose ++
          (mid ++ (bOpen ++ (p2 ++ (bClose ++ post))))))) =
      mid ++ extractRemoveL post := by
  have h1 : extractRemoveL
      (bOpen ++ (p1 ++ (bClose ++
        (mid ++ (bOpen ++ (p2 ++ (bClose ++ post))))))) =
      extractRemoveL (mid ++ (bOpen ++ (p2 ++ (bClose ++ post)))) := by
    simpa using
      @extractRemove_block [] p1
        (mid ++ (bOpen ++ (p2 ++ (bClose ++ post)))) (by decide) hp1
  rw [h1, extractRemove_block post hmid hp2]

/-- Witness for C6: two blocks in sequence, the first payload containing
the literal word `private`; each block is closed at its own end marker. -/
theorem C6_two_blocks_witness :
    extractRemoveL
        ("<!--private\nA private note\n-->\nMid\n<!--private\nB\n-->\nEnd".toList) =
      "Mid\nEnd".toList := by
  have e1 : "<!--private\nA private note\n-->\nMid\n<!--private\nB\n-->\nEnd".toList =
      bOpen ++ ("A private note".toList ++ (bClose ++
        ("Mid\n".toList ++ (bOpen ++ ("B".toList ++ (bClose ++ "End".toList)))))) := by
    decide
  rw [e1, C6_two_blocks _ _ _ _ (by decide) (by decide) (by decide)]
  decide

/-- Counterexample to C7 as stated: remove-mode extraction is not
idempotent on every content string.  Removing the inner block of
`"<!--priv<!--private x-->ate y-->"` splices the surrounding text into
the fresh block `"<!--private y-->"`, which a second extraction deletes:
the first pass yields `"<!--private y-->"`, the second pass `""`. -/
theorem C7_not_idempotent :
    extractRemoveL (extractRemoveL ("<!--priv<!--private x-->ate y-->".toList)) ≠
      extractRemoveL ("<!--priv<!--private x-->ate y-->".toList) := by
  decide

/-- C7 (amended): remove-mode extraction is idempotent on every content
whose extraction output no longer contains the opening token `<!--`;
in general a removal can splice surrounding text into a new private
block, and re-extraction then changes the content again. -/
theorem C7_remove_idempotent (c : List Char)
    (h : hasSub openTok (extractRemoveL c) = false) :
    extractRemoveL (extractRemoveL c) = extractRemoveL c :=
  extractRemove_no_open h

/-- Witness for C7 (amended) at the specification's concrete scenario. -/
theorem C7_remove_idempotent_witness :
    hasSub openTok (extractRemoveL ("# C\n<!--private\nSecret\n-->\nEnd".toList)) = false ∧
    extractRemoveL (extractRemoveL ("# C\n<!--private\nSecret\n-->\nEnd".toList)) =
      extractRemoveL ("# C\n<!--private\nSecret\n-->\nEnd".toList) :=
  ⟨by decide, C7_remove_idempotent _ (by decide)⟩

/-! Tree filtering and renumbering. -/

theorem processItems_append (pfx : String) (a b : List BookItem) :
    processItems pfx (a ++ b) = processItems pfx a ++ processItems pfx b := by
  induction a with
  | nil => simp [processItems]
  | cons i is ih =>
    rw [List.cons_append]
    simp only [processItems]
    cases h : processItem pfx i <;> simp [h, ih]

theorem keepsNum_aux : ∀ (N : Nat) (items : List BookItem), sizeOf items ≤ N →
    ∀ p k, keepsNum items (updateChapterNumbers p k items) := by
  intro N
  induction N with
  | zero =>
    intro items h p k
    exfalso
    cases items with
    | nil => simp at h
    | cons a as => simp at h
  | succ N ih =>
    intro items h p k
    cases items with
    | nil => simp [updateChapterNumbers, keepsNum]
    | cons it rest =>
      cases it with
      | chapter n c num subs p' sp pn =>
        simp only [List.cons.sizeOf_spec, BookItem.chapter.sizeOf_spec] at h
        cases num with
        | some x =>
          simp only [updateChapterNumbers, keepsNum]
          refine ⟨p ++ [k], updateChapterNumbers (p ++ [k]) 1 subs,
            updateChapterNumbers p (k + 1) rest, rfl, ?_, ?_⟩
          · exact ih subs (by omega) (p ++ [k]) 1
          · exact ih rest (by omega) p (k + 1)
        | none =>
          simp only [updateChapterNumbers, keepsNum]
          exact ⟨updateChapterNumbers p k rest, rfl, ih rest (by omega) p k⟩
      | separator =>
        simp only [List.cons.sizeOf_spec] at h
        simp only [updateChapterNumbers, keepsNum]
        exact ⟨updateChapterNumbers p k rest, rfl, ih rest (by omega) p k⟩
      | partTitle t =>
        simp only [List.cons.sizeOf_spec] at h
        simp only [updateChapterNumbers, keepsNum]
        exact ⟨updateChapterNumbers p k rest, rfl, ih rest (by omega) p k⟩

theorem dense_aux : ∀ (N : Nat) (items : List BookItem), sizeOf items ≤ N →
    ∀ p k, dense p k (updateChapterNumbers p k items) := by
  intro N
  induction N with
  | zero =>
    intro items h p k
    exfalso
    cases items with
    | nil => simp at h
    | cons a as => simp at h
  | succ N ih =>
    intro items h p k
    cases items with
    | nil => simp [updateChapterNumbers, dense]
    | cons it rest =>
      cases it with
      | chapter n c num subs p' sp pn =>
        simp only [List.cons.sizeOf_spec, BookItem.chapter.sizeOf_spec] at h
        cases num with
        | some x =>
          simp only [updateChapterNumbers, dense]
          refine ⟨by simp, ih subs (by omega) (p ++ [k]) 1, ih rest (by omega) p (k + 1)⟩
        | none =>
          simp only [updateChapterNumbers, dense]
          exact ih rest (by omega) p k
      | separator =>
        simp only [List.cons.sizeOf_spec] at h
        simp only [updateChapterNumbers, dense]
        exact ih rest (by omega) p k
      | partTitle t =>
        simp only [List.cons.sizeOf_spec] at h
        simp only [updateChapterNumbers, dense]
        exact ih rest (by omega) p k

theorem sameShape_aux (f : String → String) :
    ∀ (N : Nat) (items : List BookItem), sizeOf items ≤ N →
      sameShape items (mapBookContent f items) := by
  intro N
  induction N with
  | zero =>
    intro items h
    exfalso
    cases items with
    | nil => simp at h
    | cons a as => simp at h
  | succ N ih =>
    intro items h
    cases items with
    | nil => simp [mapBookContent, sameShape]
    | cons it rest =>
      cases it with
      | chapter n c num subs p' sp pn =>
        simp only [List.cons.sizeOf_spec, BookItem.chapter.sizeOf_spec] at h
        simp only [mapBookContent, mapItemContent, sameShape]
        exact ⟨f c, mapBookContent f subs, mapBookContent f rest, rfl,
          ih subs (by omega), ih rest (by omega)⟩
      | separator =>
        simp only [List.cons.sizeOf_spec] at h
        simp only [mapBookContent, mapItemContent, sameShape]
        exact ⟨mapBookContent f rest, rfl, ih rest (by omega)⟩
      | partTitle t =>
        simp only [List.cons.sizeOf_spec] at h
        simp only [mapBookContent, mapItemContent, sameShape]
        exact ⟨mapBookContent f rest, rfl, ih rest (by omega)⟩

/-- Counterexample to C1 as stated: a chapter whose `source_path` is
null is NOT kept by the remove-mode transform.  The chained `?` in
`process_item` returns `None` for it, which drops the chapter: the run
on a book holding only a draft chapter returns the empty book, while the
claim says the chapter is treated as public and kept. -/
theorem C1_no_source_kept_cex :
    runPrivate (some (PrivateCfg.mk (some (TomlVal.boolV true)) none none none))
      [BookItem.chapter "Draft" "text" (some [1]) [] none none []] =
      Except.ok [] := by
  simp [runPrivate, parseCfg, readB, readSN, readS, unwrapOr, asBool,
    Bind.bind, Except.bind, mapBookContent, mapItemContent, extractContent,
    processItems, processItem, updateSectionNumbers, updateChapterNumbers]

/-- C1 (amended): a chapter with no source identifier is dropped by the
remove-mode tree filter together with its entire subtree (the `?` chain
in `process_item` yields `None` for it); the surrounding siblings are
filtered as usual. -/
theorem C1_no_source_dropped (pfx : String) (pre post : List BookItem)
    (n c : String) (num : Option (List Nat)) (subs : List BookItem)
    (p : Option String) (pn : List String) :
    processItems pfx (pre ++ BookItem.chapter n c num subs p none pn :: post) =
      processItems pfx pre ++ processItems pfx post := by
  rw [processItems_append]
  have h2 : processItems pfx (BookItem.chapter n c num subs p none pn :: post) =
      processItems pfx post := by
    simp [processItems, processItem]
  rw [h2]

/-- C3: a chapter whose source file name starts with the configured
marker is pruned from the tree in remove mode together with all of its
descendants, whatever the descendants' own source paths are: the whole
subtree is gone from the output, and the surrounding siblings are
filtered as usual. -/
theorem C3_private_chapter_pruned (pfx : String) (pre post : List BookItem)
    (n c : String) (num : Option (List Nat)) (subs : List BookItem)
    (p : Option String) (sp : String) (pn : List String) (f : List Char)
    (hf : fileName sp = some f) (hs : leadChars pfx.toList f = true) :
    processItems pfx (pre ++ BookItem.chapter n c num subs p (some sp) pn :: post) =
      processItems pfx pre ++ processItems pfx post := by
  rw [processItems_append]
  have hs' : leadChars pfx.data f = true := hs
  have h2 : processItems pfx (BookItem.chapter n c num subs p (some sp) pn :: post) =
      processItems pfx post := by
    simp [processItems, processItem, hf, hs']
  rw [h2]

/-- Witness for C3: a chapter named `_secret.md` with a public-named
descendant disappears entirely. -/
theorem C3_private_chapter_pruned_witness :
    fileName "_secret.md" = some "_secret.md".toList ∧
    processItems "_"
      [BookItem.chapter "S" "" (some [1])
        [BookItem.chapter "Pub" "" (some [1, 1]) [] none (some "pub.md") []]
        none (some "_secret.md") []] = [] := by
  constructor
  · decide
  · have h := C3_private_chapter_pruned "_" [] [] "S" "" (some [1])
      [BookItem.chapter "Pub" "" (some [1, 1]) [] none (some "pub.md") []]
      none "_secret.md" [] ("_secret.md".toList) (by decide) (by decide)
    simpa [processItems] using h

/-- Counterexample to C4 as stated: the renumberer does not produce a
dense `1..k` sequence in every sibling group of the output.  In the book
`[Intro (no number) [Sub (number [5, 7])]]` the only numbered chapter of
the inner sibling group keeps the number `[5, 7]` — its last component
is 7, not the position 1 that a dense renumbering would assign — because
`update_chapter_numbers` never descends below an unnumbered chapter. -/
theorem C4_dense_cex :
    (headSubNumber (updateSectionNumbers
      [BookItem.chapter "Intro" "" none
        [BookItem.chapter "Sub" "" (some [5, 7]) [] none none []]
        none (some "intro.md") []])).bind List.getLast? = some 7 ∧
    (7 : Nat) ≠ 1 := by
  constructor
  · simp [updateSectionNumbers, updateChapterNumbers, headSubNumber,
      itemSubs, itemNumber]
  · decide

/-- C4 (amended): after renumbering, every sibling group reachable
through numbered chapters (the root group and, recursively, the children
of numbered chapters) carries exactly the dense numbers
`parent-path ++ [1..k]` on its numbered chapters in order; unnumbered
chapters consume no counter slot and are returned — with their whole
subtrees — entirely unchanged, so a null number remains null.  Sibling
groups below an unnumbered chapter are left untouched rather than
renumbered. -/
theorem C4_renumber_dense (items : List BookItem) :
    dense [] 1 (updateSectionNumbers items) ∧
    keepsNum items (updateSectionNumbers items) :=
  ⟨dense_aux (sizeOf items) items (le_refl _) [] 1,
   keepsNum_aux (sizeOf items) items (le_refl _) [] 1⟩

/-- Counterexample to C8 as stated: the renumberer does not reassign a
structural number to a numbered chapter whose parent is unnumbered.  In
`[Intro (no number) [Sub (number [2])]]` the sub-chapter sits at depth
2, so the claimed reassignment (reflecting sibling counts and preserving
nesting depth) would give it a number of length 2; the code leaves its
number `[2]` of length 1 because `update_chapter_numbers` never visits
the children of an unnumbered chapter. -/
theorem C8_not_reassigned_cex :
    (headSubNumber (updateSectionNumbers
      [BookItem.chapter "Intro" "" none
        [BookItem.chapter "Sub" "" (some [2]) [] none none []]
        none (some "intro.md") []])).map List.length = some 1 ∧
    (1 : Nat) ≠ 2 := by
  constructor
  · simp [updateSectionNumbers, updateChapterNumbers, headSubNumber,
      itemSubs, itemNumber]
  · decide

/-- C8 (amended): the renumberer preserves the structure of the tree and
the numbered-ness of every chapter: chapters that had a number still
have one (those reachable through numbered ancestors get the fresh dense
number), chapters that had none keep none, and an unnumbered chapter is
returned entirely unchanged together with its whole subtree — in
particular a numbered chapter below an unnumbered parent keeps its
original number instead of being reassigned. -/
theorem C8_renumber_preserves (p : List Nat) (k : Nat) (items : List BookItem) :
    keepsNum items (updateChapterNumbers p k items) :=
  keepsNum_aux (sizeOf items) items (le_refl _) p k

/-! Configuration handling. -/

theorem readB_err {o : Option TomlVal} (d : Bool) (h : wrongBool o) :
    readB o d = Except.error () := by
  rcases h with ⟨v, hv, hb⟩
  subst hv
  simp [readB, unwrapOr, hb]

theorem readS_err {o : Option TomlVal} (d : String) (h : wrongStr o) :
    readS o d = Except.error () := by
  rcases h with ⟨v, hv, hb⟩
  subst hv
  simp [readS, unwrapOr, hb]

theorem readSN_err_style {o nt : Option TomlVal} (h : wrongBool o) :
    readSN o nt = Except.error () := by
  rcases h with ⟨v, hv, hb⟩
  subst hv
  simp [readSN, unwrapOr, hb, Bind.bind, Except.bind]

theorem readSN_err_notice {o nt : Option TomlVal} (ho : o.isSome = true)
    (h : wrongStr nt) : readSN o nt = Except.error () := by
  rcases Option.isSome_iff_exists.mp ho with ⟨v, hv⟩
  subst hv
  cases hvb : asBool v with
  | none => simp [readSN, unwrapOr, hvb, Bind.bind, Except.bind]
  | some b => simp [readSN, unwrapOr, hvb, readS_err _ h, Bind.bind, Except.bind]

/-- Counterexample to C2 as stated: a wrongly typed `notice` value does
not abort the run when the `style` key is absent.  The source reads
`notice` only inside the `style`-key branch, so this configuration is
accepted and the transform succeeds, where the claim demands a single
error result. -/
theorem C2_unchecked_notice_cex :
    runPrivate (some (PrivateCfg.mk none none (some (TomlVal.boolV true)) none))
      [] = Except.ok [] := by
  simp [runPrivate, parseCfg, readB, readSN, readS, Bind.bind, Except.bind,
    mapBookContent]

/-- C2 (amended): a wrongly typed `remove`, `style` or `chapter-prefix`
value always aborts the run, and a wrongly typed `notice` aborts it when
the `style` key is also present; the abort is the single error result of
the top-level call, produced by the configuration reads before any
content is transformed, so no partial output exists.  (A wrongly typed
`notice` with the `style` key absent is silently ignored.) -/
theorem C2_config_type_error (t : PrivateCfg) (sections : List BookItem)
    (h : wrongBool t.remove ∨ wrongBool t.style ∨
      (t.style.isSome = true ∧ wrongStr t.notice) ∨ wrongStr t.chapterPfx) :
    runPrivate (some t) sections = Except.error () := by
  obtain ⟨r, s, nt, cp⟩ := t
  simp only at h
  have herr : parseCfg (some (PrivateCfg.mk r s nt cp)) = Except.error () := by
    rcases h with h | h | ⟨hs, hn⟩ | h
    · simp [parseCfg, readB_err false h, Bind.bind, Except.bind]
    · cases hR : readB r false with
      | error e => cases e; simp [parseCfg, hR, Bind.bind, Except.bind]
      | ok b => simp [parseCfg, hR, readSN_err_style h, Bind.bind, Except.bind]
    · cases hR : readB r false with
      | error e => cases e; simp [parseCfg, hR, Bind.bind, Except.bind]
      | ok b => simp [parseCfg, hR, readSN_err_notice hs hn, Bind.bind, Except.bind]
    · cases hR : readB r false with
      | error e => cases e; simp [parseCfg, hR, Bind.bind, Except.bind]
      | ok b =>
        cases hSN : readSN s nt with
        | error e => cases e; simp [parseCfg, hR, hSN, Bind.bind, Except.bind]
        | ok sn =>
          simp [parseCfg, hR, hSN, readS_err _ h, Bind.bind, Except.bind]
  simp [runPrivate, herr, Bind.bind, Except.bind]

/-- Witness for C2 (amended): a non-boolean `remove` value aborts the
run with the single error result. -/
theorem C2_config_type_error_witness :
    wrongBool (some (TomlVal.strV "yes")) ∧
    runPrivate (some (PrivateCfg.mk (some (TomlVal.strV "yes")) none none none))
      [] = Except.error () :=
  ⟨⟨TomlVal.strV "yes", rfl, rfl⟩,
   C2_config_type_error _ [] (Or.inl ⟨TomlVal.strV "yes", rfl, rfl⟩)⟩

/-- Counterexample to C9 as stated: the `notice` value IS read in a
configuration whose effective `style` is false.  With
`style = false` present and `notice` holding a boolean, the
`as_str().unwrap()` on `notice` aborts the run — were `notice` never
read, the run would have succeeded. -/
theorem C9_notice_read_when_style_false_cex :
    runPrivate (some (PrivateCfg.mk none (some (TomlVal.boolV false))
      (some (TomlVal.boolV true)) none)) [] = Except.error () := by
  simp [runPrivate, parseCfg, readB, readSN, readS, unwrapOr, asBool, asStr,
    Bind.bind, Except.bind]

/-- C9 (amended): the `notice` value is read if and only if the `style`
KEY is present in the configuration, whatever boolean it holds: when the
`style` key is absent a supplied `notice` is ignored (the run behaves
exactly as if `notice` were absent, so the default label stands even
though styling is effectively on), and when the `style` key is present
the `notice` value is read — a wrongly typed one aborts the run — even
when `style` is false. -/
theorem C9_notice_read_iff_style_key (t : PrivateCfg) (sections : List BookItem) :
    (t.style = none →
      runPrivate (some t) sections =
        runPrivate (some (PrivateCfg.mk t.remove t.style none t.chapterPfx))
          sections) ∧
    (∀ b, t.style = some (TomlVal.boolV b) → wrongStr t.notice →
      runPrivate (some t) sections = Except.error ()) := by
  obtain ⟨r, s, nt, cp⟩ := t
  simp only
  constructor
  · intro hs
    subst hs
    rfl
  · intro b hs hn
    subst hs
    have hsn : readSN (some (TomlVal.boolV b)) nt = Except.error () :=
      readSN_err_notice rfl hn
    cases hR : readB r false with
    | error e => cases e; simp [runPrivate, parseCfg, hR, Bind.bind, Except.bind]
    | ok bb => simp [runPrivate, parseCfg, hR, hsn, Bind.bind, Except.bind]

/-- Witness for C9 (amended): with the `style` key absent a supplied
notice is ignored, and with `style = true` present a wrongly typed
notice aborts the run. -/
theorem C9_notice_read_iff_style_key_witness :
    runPrivate (some (PrivateCfg.mk none none (some (TomlVal.strV "X")) none))
        [] =
      runPrivate (some (PrivateCfg.mk none none none none)) [] ∧
    runPrivate (some (PrivateCfg.mk none (some (TomlVal.boolV true))
        (some (TomlVal.boolV false)) none)) [] = Except.error () :=
  ⟨(C9_notice_read_iff_style_key
      (PrivateCfg.mk none none (some (TomlVal.strV "X")) none) []).1 rfl,
   (C9_notice_read_iff_style_key
      (PrivateCfg.mk none (some (TomlVal.boolV true))
        (some (TomlVal.boolV false)) none) []).2 true rfl
     ⟨TomlVal.boolV false, rfl, rfl⟩⟩

/-- C10: with remove mode off, the transform only rewrites chapter
contents: the run succeeds and the output tree has exactly the input's
items in the input's order, with every chapter's name, number, path,
source path, parent names and sub-item nesting unchanged. -/
theorem C10_keep_mode_same_shape (t : Option PrivateCfg)
    (sections : List BookItem) (c : EffCfg)
    (hc : parseCfg t = Except.ok c) (hr : c.remove = false) :
    ∃ out, runPrivate t sections = Except.ok out ∧ sameShape sections out := by
  refine ⟨mapBookContent (extractContent c.remove c.style c.notice) sections,
    ?_, ?_⟩
  · simp [runPrivate, hc, hr, Bind.bind, Except.bind]
  · exact sameShape_aux _ (sizeOf sections) sections (le_refl _)

/-- Witness for C10: the default configuration (remove off) on a small
book with a separator and one chapter containing a private block. -/
theorem C10_keep_mode_same_shape_witness :
    parseCfg none = Except.ok (EffCfg.mk false true "CONFIDENTIAL" "_") ∧
    ∃ out,
      runPrivate none
          [BookItem.separator,
            BookItem.chapter "A" "x<!--private\nS\n-->\ny" (some [1]) []
              none (some "a.md") []] = Except.ok out ∧
      sameShape
        [BookItem.separator,
          BookItem.chapter "A" "x<!--private\nS\n-->\ny" (some [1]) []
            none (some "a.md") []] out :=
  ⟨rfl, C10_keep_mode_same_shape none _ _ rfl rfl⟩

end MdbookPrivate
